import Mathlib

set_option maxHeartbeats 1000000
set_option maxRecDepth 10000

/-!
Shallow embedding of the response-recovery core of the repository
(src/perplexity_utils.py).  Python strings are modelled as `List Char`;
every `re` operation of the source is specialised to the concrete pattern
the source uses, and `json.loads` is modelled by a recursive-descent
parser following Python's `json` grammar (objects, arrays, strings with
escapes, numbers, `true`/`false`/`null`, and the `NaN`/`Infinity`
constants Python accepts).
-/

/-- The opening-brace character (code point 123), named so that string
literals in this file can stay free of raw brace characters. -/
def braceO : Char := Char.ofNat 123

/-- The closing-brace character (code point 125). -/
def braceC : Char := Char.ofNat 125

/-- The double-quote character. -/
def quoteC : Char := Char.ofNat 34

/-- The apostrophe character. -/
def aposC : Char := Char.ofNat 39

/-- The backslash character. -/
def backslashC : Char := Char.ofNat 92

/-- Python `str.strip()` whitespace: space, tab, newline, carriage
return, vertical tab, form feed (ASCII fragment of the Python set). -/
def pyWs (c : Char) : Bool :=
  c = ' ' || c = '\t' || c = '\n' || c = '\r' || c = Char.ofNat 11 || c = Char.ofNat 12

/-- Python `str.strip()`: drop leading and trailing whitespace. -/
def pyStrip (s : List Char) : List Char :=
  ((s.dropWhile pyWs).reverse.dropWhile pyWs).reverse

/-- Python `str.lower()` (ASCII fragment), applied characterwise. -/
def lowerStr (s : List Char) : List Char := s.map Char.toLower

/-- Leftmost-occurrence search: `findSubAux needle s k` returns `k + i`
where `i` is the least index at which `needle` is a prefix of `s.drop i`,
or `none` when there is no such index. -/
def findSubAux (needle : List Char) : List Char → Nat → Option Nat
  | [], k => if needle.isPrefixOf ([] : List Char) then some k else none
  | c :: rest, k =>
    if needle.isPrefixOf (c :: rest) then some k
    else findSubAux needle rest (k + 1)

/-- Index of the leftmost occurrence of `needle` in `s` (Python
`str.find` / leftmost `re` literal match). -/
def findSub (needle s : List Char) : Option Nat := findSubAux needle s 0

/-- Python's `needle in s` substring test. -/
def containsSub (needle s : List Char) : Bool := (findSub needle s).isSome

/-- Case-insensitive leftmost occurrence (the needle is given in
lowercase; the haystack is lowered before searching).  Since lowering is
characterwise, the returned index is valid in the original string. -/
def findSubCI (needle s : List Char) : Option Nat := findSub needle (lowerStr s)

/-- The reasoning-block open marker of the source, `<think>`. -/
def thinkOpenStr : List Char := "<think>".data

/-- The reasoning-block close marker of the source, `</think>`. -/
def thinkCloseStr : List Char := "</think>".data

/-- One fuel-indexed pass of
`re.sub(r"<think>[\s\S]*?</think>", "", text, flags=re.IGNORECASE)`:
repeatedly delete from the leftmost case-insensitive `<think>` through
the nearest following `</think>` (non-greedy), continuing after the
deleted span; a marker with no close is left in place.  Fuel bounds the
recursion; each step deletes at least 15 characters. -/
def removeThinkAux : Nat → List Char → List Char
  | 0, s => s
  | fuel + 1, s =>
    match findSubCI thinkOpenStr s with
    | none => s
    | some i =>
      match findSubCI thinkCloseStr (s.drop (i + 7)) with
      | none => s
      | some j => s.take i ++ removeThinkAux fuel ((s.drop (i + 7)).drop (j + 8))

/-- Removal of all paired `<think>...</think>` blocks
(src/perplexity_utils.py line 60). -/
def removeThinkBlocks (s : List Char) : List Char := removeThinkAux s.length s

/-- `re.sub(r"<think>[\s\S]*$", "", text, flags=re.IGNORECASE)`: delete
from the leftmost remaining `<think>` to the end of the text
(src/perplexity_utils.py line 64). -/
def removeUnclosedThink (s : List Char) : List Char :=
  match findSubCI thinkOpenStr s with
  | none => s
  | some i => s.take i

/-- The two ways `^.*?(?:Now |)let me fetch` can match at a position
(lowercased alternatives of action pattern 1). -/
def actionVariants1 : List (List Char) :=
  ["now let me fetch".data, "let me fetch".data]

/-- The lowercase letters `i'll`, built without a raw apostrophe. -/
def illStr : List Char := ['i', aposC, 'l', 'l']

/-- Lowercased alternatives of action pattern 2,
`^.*?(?:Now |)I(?:'ll| will) (?:fetch|search|look up)`. -/
def actionVariants2 : List (List Char) :=
  [ "now ".data ++ illStr ++ " fetch".data
  , "now ".data ++ illStr ++ " search".data
  , "now ".data ++ illStr ++ " look up".data
  , "now i will fetch".data
  , "now i will search".data
  , "now i will look up".data
  , illStr ++ " fetch".data
  , illStr ++ " search".data
  , illStr ++ " look up".data
  , "i will fetch".data
  , "i will search".data
  , "i will look up".data ]

/-- Lowercased alternative of action pattern 3, `^.*?Fetching`. -/
def actionVariants3 : List (List Char) := ["fetching".data]

/-- Lowercased alternative of action pattern 4, `^.*?Searching`. -/
def actionVariants4 : List (List Char) := ["searching".data]

/-- Least index at which one of `variants` is a prefix of the remaining
text (the lazy `^.*?` of the action regexes tries start positions left
to right). -/
def findFirstAnyAux (variants : List (List Char)) : List Char → Nat → Option Nat
  | [], k => if variants.any (·.isPrefixOf ([] : List Char)) then some k else none
  | c :: rest, k =>
    if variants.any (·.isPrefixOf (c :: rest)) then some k
    else findFirstAnyAux variants rest (k + 1)

/-- Leftmost match position of a variant set. -/
def findFirstAny (variants : List (List Char)) (s : List Char) : Option Nat :=
  findFirstAnyAux variants s 0

/-- One action-pattern scrub,
`re.sub(r"^.*?<variants>[^\x7b]*", "", text, flags=IGNORECASE|DOTALL)`:
if some variant occurs (case-insensitively), delete everything from the
start of the text up to (excluding) the first `\x7b` at or after the
leftmost variant occurrence; with no such brace the whole text is
deleted.  (The matched variant itself contains no brace, so the first
brace at or after the occurrence start equals the first brace after the
matched variant, which is where `[^\x7b]*` stops.) -/
def applyActionPattern (variants : List (List Char)) (s : List Char) : List Char :=
  match findFirstAny variants (lowerStr s) with
  | none => s
  | some j =>
    match (s.drop j).findIdx? (· = braceO) with
    | none => []
    | some k => (s.drop j).drop k

/-- The four action scrubs of src/perplexity_utils.py lines 68-75,
applied in source order. -/
def applyActionPatterns (s : List Char) : List Char :=
  applyActionPattern actionVariants4
    (applyActionPattern actionVariants3
      (applyActionPattern actionVariants2
        (applyActionPattern actionVariants1 s)))

/-- JSON whitespace accepted between tokens by Python `json.loads`. -/
def pyJsonWs (c : Char) : Bool := c = ' ' || c = '\t' || c = '\n' || c = '\r'

/-- Skip JSON inter-token whitespace. -/
def skipJsonWs (s : List Char) : List Char := s.dropWhile pyJsonWs

/-- Hexadecimal digit test for `\uXXXX` escapes. -/
def isHexDig (c : Char) : Bool :=
  c.isDigit || ('a' ≤ c && c ≤ 'f') || ('A' ≤ c && c ≤ 'F')

/-- Parse the body of a JSON string after the opening quote, returning
the text after the closing quote.  Escapes and the strict-mode rejection
of raw control characters follow Python's `json` scanner. -/
def parseStringBody : Nat → List Char → Option (List Char)
  | 0, _ => none
  | _ + 1, [] => none
  | fuel + 1, c :: rest =>
    if c = quoteC then some rest
    else if c = backslashC then
      match rest with
      | [] => none
      | e :: rest2 =>
        if e = 'u' then
          match rest2 with
          | h1 :: h2 :: h3 :: h4 :: rest3 =>
            if isHexDig h1 && isHexDig h2 && isHexDig h3 && isHexDig h4 then
              parseStringBody fuel rest3
            else none
          | _ => none
        else if e = quoteC || e = backslashC || e = '/' || e = 'b' || e = 'f'
            || e = 'n' || e = 'r' || e = 't' then
          parseStringBody fuel rest2
        else none
    else if c.toNat < 32 then none
    else parseStringBody fuel rest

/-- One or more digits, then any further digits (`\d+`). -/
def parseDigitsGe1 : List Char → Option (List Char)
  | [] => none
  | c :: rest => if c.isDigit then some (rest.dropWhile Char.isDigit) else none

/-- The integer part `(?:0|[1-9]\d*)` of Python's JSON number regex. -/
def parseIntPart : List Char → Option (List Char)
  | [] => none
  | c :: rest =>
    if c = '0' then some rest
    else if c.isDigit then some (rest.dropWhile Char.isDigit) else none

/-- The optional fraction `(\.\d+)?`: consume it when present, otherwise
leave the text unchanged. -/
def parseFracOpt (s : List Char) : List Char :=
  match s with
  | c :: rest =>
    if c = '.' then
      match parseDigitsGe1 rest with
      | some r => r
      | none => s
    else s
  | [] => s

/-- The optional exponent `([eE][-+]?\d+)?`. -/
def parseExpOpt (s : List Char) : List Char :=
  match s with
  | c :: rest =>
    if c = 'e' || c = 'E' then
      match rest with
      | d :: rest2 =>
        if d = '+' || d = '-' then
          match parseDigitsGe1 rest2 with
          | some r => r
          | none => s
        else
          match parseDigitsGe1 rest with
          | some r => r
          | none => s
      | [] => s
    else s
  | [] => s

/-- Kind of the JSON value found at top level. -/
inductive JKind where
  | obj | arr | str | num | boolean | nul
  deriving DecidableEq, Repr

/-- Parsing mode: a full value, the members of an object after its
opening brace (first key position), or the elements of an array. -/
inductive PMode where
  | value | members | elements
  deriving DecidableEq, Repr

/-- Fuel-indexed recursive-descent scanner following Python's
`json.loads` grammar.  In `value` mode the head of the input must be the
first character of a value; `members`/`elements` modes are entered after
the opening bracket (whitespace already skipped, non-empty collection)
and return the text after the closing bracket, with a dummy kind. -/
def parseJ : Nat → PMode → List Char → Option (JKind × List Char)
  | 0, _, _ => none
  | fuel + 1, PMode.value, s =>
    match s with
    | [] => none
    | c :: rest =>
      if c = braceO then
        match skipJsonWs rest with
        | [] => none
        | d :: rest2 =>
          if d = braceC then some (JKind.obj, rest2)
          else
            match parseJ fuel PMode.members (d :: rest2) with
            | none => none
            | some (_, r) => some (JKind.obj, r)
      else if c = '[' then
        match skipJsonWs rest with
        | [] => none
        | d :: rest2 =>
          if d = ']' then some (JKind.arr, rest2)
          else
            match parseJ fuel PMode.elements (d :: rest2) with
            | none => none
            | some (_, r) => some (JKind.arr, r)
      else if c = quoteC then
        match parseStringBody (rest.length + 1) rest with
        | none => none
        | some r => some (JKind.str, r)
      else if c = 't' then
        if "rue".data.isPrefixOf rest then some (JKind.boolean, rest.drop 3) else none
      else if c = 'f' then
        if "alse".data.isPrefixOf rest then some (JKind.boolean, rest.drop 4) else none
      else if c = 'n' then
        if "ull".data.isPrefixOf rest then some (JKind.nul, rest.drop 3) else none
      else if c = 'N' then
        if "aN".data.isPrefixOf rest then some (JKind.num, rest.drop 2) else none
      else if c = 'I' then
        if "nfinity".data.isPrefixOf rest then some (JKind.num, rest.drop 7) else none
      else if c = '-' then
        match parseIntPart rest with
        | some r => some (JKind.num, parseExpOpt (parseFracOpt r))
        | none =>
          if "Infinity".data.isPrefixOf rest then some (JKind.num, rest.drop 8) else none
      else if c.isDigit then
        match parseIntPart (c :: rest) with
        | some r => some (JKind.num, parseExpOpt (parseFracOpt r))
        | none => none
      else none
  | fuel + 1, PMode.members, s =>
    match s with
    | [] => none
    | c :: rest =>
      if c = quoteC then
        match parseStringBody (rest.length + 1) rest with
        | none => none
        | some afterKey =>
          match skipJsonWs afterKey with
          | [] => none
          | d :: afterColon =>
            if d = ':' then
              match parseJ fuel PMode.value (skipJsonWs afterColon) with
              | none => none
              | some (_, afterVal) =>
                match skipJsonWs afterVal with
                | [] => none
                | e :: rest2 =>
                  if e = braceC then some (JKind.obj, rest2)
                  else if e = ',' then parseJ fuel PMode.members (skipJsonWs rest2)
                  else none
            else none
      else none
  | fuel + 1, PMode.elements, s =>
    match parseJ fuel PMode.value s with
    | none => none
    | some (_, afterVal) =>
      match skipJsonWs afterVal with
      | [] => none
      | e :: rest2 =>
        if e = ']' then some (JKind.arr, rest2)
        else if e = ',' then parseJ fuel PMode.elements (skipJsonWs rest2)
        else none

/-- `json.loads` on a whole document: a single value surrounded by
optional whitespace; trailing non-whitespace is an error ("Extra
data").  Returns the kind of the top-level value on success. -/
def parseTop (s : List Char) : Option JKind :=
  match parseJ (2 * s.length + 2) PMode.value (skipJsonWs s) with
  | none => none
  | some (k, rest) => if (skipJsonWs rest).isEmpty then some k else none

/-- Does `json.loads` succeed on `s`? -/
def jsonLoadsOk (s : List Char) : Bool := (parseTop s).isSome

/-- Does `json.loads` succeed on `s` with a JSON object as the top-level
value? -/
def jsonLoadsObj (s : List Char) : Bool :=
  match parseTop s with
  | some JKind.obj => true
  | _ => false

/-- The code-fence marker. -/
def fenceTickStr : List Char := "```".data

/-- The JSON-tagged code-fence opener (lowercased). -/
def fenceJsonStr : List Char := "```json".data

/-- One fenced-code-block attempt of src/perplexity_utils.py lines
84-97: `re.search` finds the leftmost opener; its match extends to the
nearest following fence marker, and `match.group(1).strip()` is the
enclosed content with surrounding whitespace stripped.  The candidate is
returned only when it parses as JSON, mirroring the
`json.loads`/`continue` control flow. -/
def tryFencedBlock (opener : List Char) (text : List Char) : Option (List Char) :=
  match findSubCI opener text with
  | none => none
  | some i =>
    match findSubCI fenceTickStr (text.drop (i + opener.length)) with
    | none => none
    | some j =>
      let candidate := pyStrip ((text.drop (i + opener.length)).take j)
      if jsonLoadsOk candidate then some candidate else none

/-- `re.search(r"\x7b[\s\S]*\x7d", text)`: the greedy span from the
first opening brace to the last closing brace, when the latter comes
after the former. -/
def braceSpan (text : List Char) : Option (List Char) :=
  match text.findIdx? (· = braceO), text.reverse.findIdx? (· = braceC) with
  | some i, some jr =>
    let j := text.length - 1 - jr
    if i < j then some ((text.drop i).take (j - i + 1)) else none
  | _, _ => none

/-- The depth-counting walk of src/perplexity_utils.py lines 112-124:
starting at a `\x7b`, increment on `\x7b`, decrement on `\x7d`, and stop
at the first position where the depth returns to zero, returning the
length of the balanced span. -/
def braceWalk : List Char → Int → Nat → Option Nat
  | [], _, _ => none
  | c :: rest, depth, pos =>
    if c = braceO then braceWalk rest (depth + 1) (pos + 1)
    else if c = braceC then
      if depth - 1 = 0 then some (pos + 1) else braceWalk rest (depth - 1) (pos + 1)
    else braceWalk rest depth (pos + 1)

/-- The balanced-brace candidate inside the greedy span: walk from the
first `\x7b` of the span and cut at the first return to depth zero. -/
def balancedCandidate (span : List Char) : Option (List Char) :=
  match span.findIdx? (· = braceO) with
  | none => none
  | some st =>
    match braceWalk (span.drop st) 0 0 with
    | none => none
    | some len => some ((span.drop st).take len)

/-- The whole-text fallback of src/perplexity_utils.py lines 126-131:
strip the text and return it when it parses as JSON. -/
def wholeTextTry (text : List Char) : Option (List Char) :=
  if jsonLoadsOk (pyStrip text) then some (pyStrip text) else none

/-- The extraction stages of `_extract_json_from_text` after
reasoning-block removal: action scrubs, strip, the empty check, fenced
blocks, the greedy brace span, the balanced-brace rescue, and the
whole-text fallback, in source order. -/
def extractRest (t2 : List Char) : Option (List Char) :=
  let text := pyStrip (applyActionPatterns t2)
  if text.isEmpty then none
  else
    match tryFencedBlock fenceJsonStr text with
    | some r => some r
    | none =>
      match tryFencedBlock fenceTickStr text with
      | some r => some r
      | none =>
        match braceSpan text with
        | some span =>
          if jsonLoadsOk span then some span
          else
            match balancedCandidate span with
            | some cand => if jsonLoadsOk cand then some cand else wholeTextTry text
            | none => wholeTextTry text
        | none => wholeTextTry text

/-- The two reasoning-block stages of `_extract_json_from_text`
(src/perplexity_utils.py lines 58-64). -/
def sanitizeThink (t : List Char) : List Char :=
  removeUnclosedThink (removeThinkBlocks t)

/-- `_extract_json_from_text` (src/perplexity_utils.py lines 51-133). -/
def extractJsonFromText (t : List Char) : Option (List Char) :=
  extractRest (sanitizeThink t)

/-- The fixed indicator list of `_is_incomplete_response`
(src/perplexity_utils.py lines 184-194). -/
def incompleteIndicators : List (List Char) :=
  [ "let me fetch".data
  , "now let me".data
  , "i will search".data
  , illStr ++ " search".data
  , "i will fetch".data
  , illStr ++ " fetch".data
  , "let me search".data
  , "fetching".data
  , "searching for".data ]

/-- `_is_incomplete_response` (src/perplexity_utils.py lines 178-203):
lower and strip the text, and report true when some indicator occurs in
it and the original text contains no opening brace. -/
def isIncompleteResponse (text : List Char) : Bool :=
  incompleteIndicators.any
    (fun ind => containsSub ind (pyStrip (lowerStr text)) && !(text.contains braceO))

/-- Terminal outcome of one `perplexity_parse_pydantic` call, up to the
point where the parsed JSON is handed to the external schema-validation
collaborator (Pydantic), which the spec places out of scope. -/
inductive POutcome where
  | noChoices
  | emptyContent
  | extractionFailed (preview : List Char)
  | malformedJson
  | parsedJson (s : List Char)
  deriving DecidableEq, Repr

/-- `MAX_RETRIES` of src/perplexity_utils.py line 222. -/
def MAX_RETRIES : Nat := 2

/-- The classification/retry/extraction loop of
`perplexity_parse_pydantic` (src/perplexity_utils.py lines 277-314),
driven by the list of successive upstream replies (each reply is its
list of choice contents).  Returns the number of 1-second delays
performed (one per retry) and the terminal outcome, or `none` when the
supplied reply list is too short.  Transport errors and schema
validation belong to external collaborators and are not modelled. -/
def perplexityParsePydantic : List (List (List Char)) → Nat → Option (Nat × POutcome)
  | [], _ => none
  | choices :: laterReplies, retryCount =>
    match choices with
    | [] => some (0, POutcome.noChoices)
    | content :: _ =>
      if content.isEmpty then some (0, POutcome.emptyContent)
      else if isIncompleteResponse content && decide (retryCount < MAX_RETRIES) then
        match perplexityParsePydantic laterReplies (retryCount + 1) with
        | none => none
        | some (delays, outcome) => some (delays + 1, outcome)
      else
        match extractJsonFromText content with
        | none => some (0, POutcome.extractionFailed (content.take 500))
        | some s =>
          if jsonLoadsOk s then some (0, POutcome.parsedJson s)
          else some (0, POutcome.malformedJson)

/-! ### Search-function characterisations -/

theorem findSubAux_none_iff (n : List Char) : ∀ (s : List Char) (k : Nat),
    findSubAux n s k = none ↔ ∀ p, ¬ n <+: s.drop p := by
  intro s
  induction s with
  | nil =>
    intro k
    constructor
    · intro h p
      simp only [findSubAux] at h
      by_cases hp : n.isPrefixOf ([] : List Char)
      · simp [hp] at h
      · rw [List.isPrefixOf_iff_prefix] at hp
        simpa using hp
    · intro h
      simp only [findSubAux]
      have : ¬ n.isPrefixOf ([] : List Char) := by
        rw [List.isPrefixOf_iff_prefix]
        simpa using h 0
      simp [this]
  | cons c rest ih =>
    intro k
    simp only [findSubAux]
    by_cases hp : n.isPrefixOf (c :: rest)
    · simp only [hp, if_true]
      constructor
      · intro h; exact absurd h (by simp)
      · intro h
        exact absurd ((List.isPrefixOf_iff_prefix).mp hp) (by simpa using h 0)
    · simp only [hp, Bool.false_eq_true, if_false]
      rw [ih (k + 1)]
      constructor
      · intro h p
        cases p with
        | zero =>
          simpa using fun hcon => hp ((List.isPrefixOf_iff_prefix).mpr hcon)
        | succ p' => simpa using h p'
      · intro h p
        simpa using h (p + 1)

theorem findSubAux_some (n : List Char) : ∀ (s : List Char) (k m : Nat),
    findSubAux n s k = some m →
      k ≤ m ∧ n <+: s.drop (m - k) ∧ ∀ p, p < m - k → ¬ n <+: s.drop p := by
  intro s
  induction s with
  | nil =>
    intro k m h
    simp only [findSubAux] at h
    by_cases hp : n.isPrefixOf ([] : List Char)
    · simp only [hp, if_true, Option.some.injEq] at h
      subst h
      refine ⟨Nat.le_refl _, ?_, ?_⟩
      · simpa using (List.isPrefixOf_iff_prefix).mp hp
      · intro p hple
        exact absurd hple (by omega)
    · simp [hp] at h
  | cons c rest ih =>
    intro k m h
    simp only [findSubAux] at h
    by_cases hp : n.isPrefixOf (c :: rest)
    · simp only [hp, if_true, Option.some.injEq] at h
      subst h
      refine ⟨Nat.le_refl _, ?_, ?_⟩
      · simpa using (List.isPrefixOf_iff_prefix).mp hp
      · intro p hple
        exact absurd hple (by omega)
    · simp only [hp, Bool.false_eq_true, if_false] at h
      obtain ⟨hkm, hocc, hmin⟩ := ih (k + 1) m h
      refine ⟨by omega, ?_, ?_⟩
      · have : m - k = (m - (k + 1)) + 1 := by omega
        rw [this]
        simpa using hocc
      · intro p hple
        cases p with
        | zero =>
          simpa using fun hcon => hp ((List.isPrefixOf_iff_prefix).mpr hcon)
        | succ p' =>
          have : p' < m - (k + 1) := by omega
          simpa using hmin p' this

theorem findSubAux_intro (n : List Char) : ∀ (s : List Char) (k i : Nat),
    n <+: s.drop i → (∀ p, p < i → ¬ n <+: s.drop p) →
      findSubAux n s k = some (k + i) := by
  intro s
  induction s with
  | nil =>
    intro k i hocc hmin
    simp only [List.drop_nil] at hocc
    have h0 : n <+: ([] : List Char).drop 0 := by simpa using hocc
    have : i = 0 := by
      by_contra hne
      exact hmin 0 (by omega) h0
    subst this
    simp only [findSubAux]
    have : n.isPrefixOf ([] : List Char) := (List.isPrefixOf_iff_prefix).mpr (by simpa using hocc)
    simp [this]
  | cons c rest ih =>
    intro k i hocc hmin
    simp only [findSubAux]
    cases i with
    | zero =>
      have : n.isPrefixOf (c :: rest) := (List.isPrefixOf_iff_prefix).mpr (by simpa using hocc)
      simp [this]
    | succ i' =>
      have hp : ¬ n.isPrefixOf (c :: rest) := by
        intro hcon
        exact hmin 0 (by omega) (by simpa using (List.isPrefixOf_iff_prefix).mp hcon)
      simp only [hp, Bool.false_eq_true, if_false]
      have h1 : n <+: rest.drop i' := by simpa using hocc
      have h2 : ∀ p, p < i' → ¬ n <+: rest.drop p := by
        intro p hple hcon
        exact hmin (p + 1) (by omega) (by simpa using hcon)
      have := ih (k + 1) i' h1 h2
      rw [this]
      congr 1
      omega

theorem findSub_none_iff (n s : List Char) :
    findSub n s = none ↔ ∀ p, ¬ n <+: s.drop p := findSubAux_none_iff n s 0

theorem findSub_some (n s : List Char) (i : Nat) (h : findSub n s = some i) :
    n <+: s.drop i ∧ ∀ p, p < i → ¬ n <+: s.drop p := by
  obtain ⟨-, h1, h2⟩ := findSubAux_some n s 0 i h
  simpa using ⟨h1, h2⟩

theorem findSub_intro (n s : List Char) (i : Nat)
    (hocc : n <+: s.drop i) (hmin : ∀ p, p < i → ¬ n <+: s.drop p) :
    findSub n s = some i := by
  simpa using findSubAux_intro n s 0 i hocc hmin

theorem prefix_drop_length {n s : List Char} {i : Nat}
    (h : n <+: s.drop i) (hne : n ≠ []) : i + n.length ≤ s.length := by
  by_cases hi : i ≤ s.length
  · have := h.length_le
    simp only [List.length_drop] at this
    omega
  · exfalso
    have : s.drop i = [] := List.drop_eq_nil_of_le (by omega)
    rw [this] at h
    exact hne (List.prefix_nil.mp h)

/-! ### Substring containment and infixes -/

theorem containsSub_iff_isInfix (n s : List Char) :
    containsSub n s = true ↔ n <:+: s := by
  unfold containsSub
  rw [Option.isSome_iff_exists]
  constructor
  · rintro ⟨i, hi⟩
    obtain ⟨hocc, -⟩ := findSub_some n s i hi
    exact hocc.isInfix.trans (List.drop_suffix i s).isInfix
  · intro h
    cases hfs : findSub n s with
    | some v => exact ⟨v, rfl⟩
    | none =>
      exfalso
      obtain ⟨t, u, htu⟩ := h
      have hdrop : s.drop t.length = n ++ u := by
        rw [← htu, List.append_assoc, List.drop_left]
      exact (findSub_none_iff n s).mp hfs t.length
        (hdrop ▸ List.prefix_append n u)

theorem containsSub_eq_false_iff (n s : List Char) :
    containsSub n s = false ↔ ¬ n <:+: s := by
  rw [← containsSub_iff_isInfix]
  cases containsSub n s <;> simp

theorem containsSub_infix_mono {n u v : List Char}
    (hc : containsSub n v = false) (hinf : u <:+: v) : containsSub n u = false := by
  rw [containsSub_eq_false_iff] at hc ⊢
  exact fun hcon => hc (hcon.trans hinf)

/-! ### Lowering -/

theorem lowerStr_drop (s : List Char) (i : Nat) :
    lowerStr (s.drop i) = (lowerStr s).drop i := by
  simp [lowerStr]

theorem lowerStr_take (s : List Char) (i : Nat) :
    lowerStr (s.take i) = (lowerStr s).take i := by
  simp [lowerStr]

theorem lowerStr_append (a b : List Char) :
    lowerStr (a ++ b) = lowerStr a ++ lowerStr b := by
  simp [lowerStr]

theorem lowerStr_length (s : List Char) : (lowerStr s).length = s.length := by
  simp [lowerStr]

/-! ### Strip lemmas -/

theorem pyStrip_isInfix (s : List Char) : pyStrip s <:+: s := by
  unfold pyStrip
  have h1 : (s.dropWhile pyWs) <:+ s := List.dropWhile_suffix pyWs
  have h2 : ((s.dropWhile pyWs).reverse.dropWhile pyWs) <:+ (s.dropWhile pyWs).reverse :=
    List.dropWhile_suffix pyWs
  have h3 : ((s.dropWhile pyWs).reverse.dropWhile pyWs).reverse <+: (s.dropWhile pyWs) := by
    have := h2.reverse
    simpa using this
  exact h3.isInfix.trans h1.isInfix

theorem infix_dropWhile_of_head {n : List Char} {h : Char} {t : List Char}
    (hn : n = h :: t) (hh : ¬ pyWs h = true) (s : List Char)
    (hinf : n <:+: s) : n <:+: s.dropWhile pyWs := by
  induction s with
  | nil => simpa using hinf
  | cons c rest ih =>
    by_cases hc : pyWs c
    · rw [List.dropWhile_cons_of_pos hc]
      rcases List.infix_cons_iff.mp hinf with hpre | hinf'
      · exfalso
        subst hn
        obtain ⟨u, hu⟩ := hpre
        injection hu with h1 h2
        subst h1
        exact hh hc
      · exact ih hinf'
    · rwa [List.dropWhile_cons_of_neg hc]

theorem infix_pyStrip_of_ends {n : List Char} {h l : Char} {t : List Char}
    (hn : n = h :: t) (hl : n.getLast? = some l)
    (hh : ¬ pyWs h = true) (hlw : ¬ pyWs l = true) (s : List Char)
    (hinf : n <:+: s) : n <:+: pyStrip s := by
  unfold pyStrip
  have step1 : n <:+: s.dropWhile pyWs := infix_dropWhile_of_head hn hh s hinf
  have hrev : n.reverse <:+: (s.dropWhile pyWs).reverse := by
    rw [← List.reverse_infix] at step1
    exact step1
  have hrevhead : ∃ t', n.reverse = l :: t' := by
    have : n.reverse.head? = some l := by
      rw [List.head?_reverse]
      exact hl
    cases hrn : n.reverse with
    | nil => rw [hrn] at this; simp at this
    | cons a b =>
      rw [hrn] at this
      simp only [List.head?_cons, Option.some.injEq] at this
      exact ⟨b, by rw [this]⟩
  obtain ⟨t', ht'⟩ := hrevhead
  have step2 : n.reverse <:+: ((s.dropWhile pyWs).reverse).dropWhile pyWs :=
    infix_dropWhile_of_head ht' hlw _ hrev
  rw [← List.reverse_infix] at step2
  simpa using step2

theorem containsSub_pyStrip_eq {n : List Char} {h l : Char} {t : List Char}
    (hn : n = h :: t) (hl : n.getLast? = some l)
    (hh : ¬ pyWs h = true) (hlw : ¬ pyWs l = true) (s : List Char) :
    containsSub n (pyStrip s) = containsSub n s := by
  cases hc : containsSub n s with
  | true =>
    rw [containsSub_iff_isInfix] at hc ⊢
    exact infix_pyStrip_of_ends hn hl hh hlw s hc
  | false =>
    exact containsSub_infix_mono hc (pyStrip_isInfix s)

theorem pyStrip_eq_self {s : List Char} {h l : Char}
    (hhead : s.head? = some h) (hlast : s.getLast? = some l)
    (hh : ¬ pyWs h = true) (hlw : ¬ pyWs l = true) : pyStrip s = s := by
  unfold pyStrip
  obtain ⟨t, ht⟩ : ∃ t, s = h :: t := by
    cases hs : s with
    | nil => rw [hs] at hhead; simp at hhead
    | cons a b =>
      rw [hs] at hhead
      simp only [List.head?_cons, Option.some.injEq] at hhead
      exact ⟨b, by rw [hhead]⟩
  have hdw : s.dropWhile pyWs = s := by
    rw [ht, List.dropWhile_cons_of_neg hh]
  rw [hdw]
  obtain ⟨t', ht'⟩ : ∃ t', s.reverse = l :: t' := by
    have : s.reverse.head? = some l := by rw [List.head?_reverse]; exact hlast
    cases hs : s.reverse with
    | nil => rw [hs] at this; simp at this
    | cons a b =>
      rw [hs] at this
      simp only [List.head?_cons, Option.some.injEq] at this
      exact ⟨b, by rw [this]⟩
  have hdw2 : s.reverse.dropWhile pyWs = s.reverse := by
    rw [ht', List.dropWhile_cons_of_neg hlw]
  rw [hdw2, List.reverse_reverse]

/-! ### Reasoning-block removal lemmas -/

theorem thinkOpen_ne : thinkOpenStr ≠ [] := by decide

theorem thinkClose_ne : thinkCloseStr ≠ [] := by decide

theorem findSubCI_open_bound {s : List Char} {i : Nat}
    (h : findSubCI thinkOpenStr s = some i) : i + 7 ≤ s.length := by
  obtain ⟨hocc, -⟩ := findSub_some _ _ _ h
  have := prefix_drop_length hocc thinkOpen_ne
  simpa [lowerStr_length] using this

theorem findSubCI_close_bound {s : List Char} {j : Nat}
    (h : findSubCI thinkCloseStr s = some j) : j + 8 ≤ s.length := by
  obtain ⟨hocc, -⟩ := findSub_some _ _ _ h
  have := prefix_drop_length hocc thinkClose_ne
  simpa [lowerStr_length] using this

theorem removeThinkAux_congr : ∀ (L : Nat) (s : List Char), s.length ≤ L →
    ∀ f g, s.length ≤ f → s.length ≤ g → removeThinkAux f s = removeThinkAux g s := by
  intro L
  induction L using Nat.strong_induction_on with
  | _ L IH =>
    intro s hsL f g hf hg
    match f, g with
    | 0, 0 => rfl
    | 0, g + 1 =>
      have hs : s = [] := List.length_eq_zero.mp (by omega)
      subst hs
      simp [removeThinkAux, findSubCI, lowerStr, findSub, findSubAux, thinkOpen_ne]
    | f + 1, 0 =>
      have hs : s = [] := List.length_eq_zero.mp (by omega)
      subst hs
      simp [removeThinkAux, findSubCI, lowerStr, findSub, findSubAux, thinkOpen_ne]
    | f + 1, g + 1 =>
      cases hopen : findSubCI thinkOpenStr s with
      | none => simp only [removeThinkAux, hopen]
      | some i =>
        cases hclose : findSubCI thinkCloseStr (s.drop (i + 7)) with
        | none => simp only [removeThinkAux, hopen, hclose]
        | some j =>
          simp only [removeThinkAux, hopen, hclose]
          congr 1
          have hb1 : i + 7 ≤ s.length := findSubCI_open_bound hopen
          have hb2 : j + 8 ≤ s.length - (i + 7) := by
            have := findSubCI_close_bound hclose
            simpa [List.length_drop] using this
          have hrest : ((s.drop (i + 7)).drop (j + 8)).length = s.length - (i + 7) - (j + 8) := by
            simp only [List.length_drop]
          exact IH ((s.drop (i + 7)).drop (j + 8)).length (by omega)
            ((s.drop (i + 7)).drop (j + 8)) (le_refl _) f g (by omega) (by omega)

theorem removeThinkBlocks_eq_aux {s : List Char} {f : Nat} (hf : s.length ≤ f) :
    removeThinkBlocks s = removeThinkAux f s := by
  unfold removeThinkBlocks
  exact removeThinkAux_congr s.length s (le_refl _) s.length f (le_refl _) hf

theorem removeThinkBlocks_none {s : List Char}
    (hopen : findSubCI thinkOpenStr s = none) : removeThinkBlocks s = s := by
  unfold removeThinkBlocks
  cases hL : s.length with
  | zero => rfl
  | succ L =>
    simp only [removeThinkAux, hopen]

theorem removeThinkBlocks_noClose {s : List Char} {i : Nat}
    (hopen : findSubCI thinkOpenStr s = some i)
    (hclose : findSubCI thinkCloseStr (s.drop (i + 7)) = none) :
    removeThinkBlocks s = s := by
  unfold removeThinkBlocks
  cases hL : s.length with
  | zero => rfl
  | succ L =>
    simp only [removeThinkAux, hopen, hclose]

theorem removeThinkBlocks_step {s : List Char} {i j : Nat}
    (hopen : findSubCI thinkOpenStr s = some i)
    (hclose : findSubCI thinkCloseStr (s.drop (i + 7)) = some j) :
    removeThinkBlocks s =
      s.take i ++ removeThinkBlocks ((s.drop (i + 7)).drop (j + 8)) := by
  have hb1 : i + 7 ≤ s.length := findSubCI_open_bound hopen
  have hpos : 0 < s.length := by omega
  obtain ⟨L, hL⟩ : ∃ L, s.length = L + 1 := ⟨s.length - 1, by omega⟩
  rw [removeThinkBlocks, hL]
  simp only [removeThinkAux, hopen, hclose]
  congr 1
  have hb2 : j + 8 ≤ s.length - (i + 7) := by
    have := findSubCI_close_bound hclose
    simpa [List.length_drop] using this
  have hlen : ((s.drop (i + 7)).drop (j + 8)).length = s.length - (i + 7) - (j + 8) := by
    simp only [List.length_drop]
  exact (removeThinkBlocks_eq_aux (by omega)).symm

theorem findSub_take_first {n s : List Char} {i : Nat} (hne : n ≠ [])
    (h : findSub n s = some i) : findSub n (s.take i) = none := by
  obtain ⟨-, hmin⟩ := findSub_some n s i h
  rw [findSub_none_iff]
  intro p hcon
  rw [List.drop_take] at hcon
  obtain ⟨hpre, hlen⟩ := List.prefix_take_iff.mp hcon
  have hn : 0 < n.length := List.length_pos.mpr hne
  exact hmin p (by omega) hpre

theorem removeUnclosedThink_no_open (s : List Char) :
    findSubCI thinkOpenStr (removeUnclosedThink s) = none := by
  unfold removeUnclosedThink
  cases hopen : findSubCI thinkOpenStr s with
  | none => exact hopen
  | some i =>
    show findSubCI thinkOpenStr (s.take i) = none
    unfold findSubCI
    rw [lowerStr_take]
    exact findSub_take_first thinkOpen_ne hopen

theorem sanitizeThink_no_open (t : List Char) :
    containsSub thinkOpenStr (lowerStr (sanitizeThink t)) = false := by
  unfold sanitizeThink
  have := removeUnclosedThink_no_open (removeThinkBlocks t)
  unfold findSubCI at this
  unfold containsSub
  rw [this]
  rfl

/-! ### Occurrence form of infixes, and action-pattern lemmas -/

theorem infix_iff_occurs {n s : List Char} : n <:+: s ↔ ∃ i, n <+: s.drop i := by
  constructor
  · rintro ⟨t, u, htu⟩
    refine ⟨t.length, ?_⟩
    have : s.drop t.length = n ++ u := by
      rw [← htu, List.append_assoc, List.drop_left]
    rw [this]
    exact List.prefix_append n u
  · rintro ⟨i, hi⟩
    exact hi.isInfix.trans (List.drop_suffix i s).isInfix

theorem findFirstAnyAux_none (vs : List (List Char)) : ∀ (s : List Char) (k : Nat),
    (∀ v ∈ vs, ¬ v <:+: s) → findFirstAnyAux vs s k = none := by
  intro s
  induction s with
  | nil =>
    intro k h
    simp only [findFirstAnyAux]
    have : ¬ vs.any (·.isPrefixOf ([] : List Char)) = true := by
      rw [List.any_eq_true]
      rintro ⟨v, hv, hp⟩
      exact h v hv ((List.isPrefixOf_iff_prefix.mp hp).isInfix)
    simp [this]
  | cons c rest ih =>
    intro k h
    simp only [findFirstAnyAux]
    have hno : ¬ vs.any (·.isPrefixOf (c :: rest)) = true := by
      rw [List.any_eq_true]
      rintro ⟨v, hv, hp⟩
      exact h v hv ((List.isPrefixOf_iff_prefix.mp hp).isInfix)
    simp only [hno, Bool.false_eq_true, if_false]
    exact ih (k + 1) fun v hv hinf =>
      h v hv (hinf.trans (List.suffix_cons c rest).isInfix)

theorem findFirstAny_none {vs : List (List Char)} {s : List Char}
    (h : ∀ v ∈ vs, ¬ v <:+: s) : findFirstAny vs s = none :=
  findFirstAnyAux_none vs s 0 h

theorem applyActionPattern_id {vs : List (List Char)} {s : List Char}
    (h : ∀ v ∈ vs, ¬ v <:+: lowerStr s) : applyActionPattern vs s = s := by
  unfold applyActionPattern
  rw [findFirstAny_none h]

theorem applyActionPattern_suffix (vs : List (List Char)) (s : List Char) :
    applyActionPattern vs s <:+ s := by
  unfold applyActionPattern
  cases hf : findFirstAny vs (lowerStr s) with
  | none => exact List.suffix_refl s
  | some j =>
    dsimp only
    cases hb : (s.drop j).findIdx? (· = braceO) with
    | none => exact List.nil_suffix
    | some k => exact ((s.drop j).drop_suffix k).trans (s.drop_suffix j)

theorem applyActionPatterns_suffix (s : List Char) : applyActionPatterns s <:+ s := by
  unfold applyActionPatterns
  exact (applyActionPattern_suffix _ _).trans
    ((applyActionPattern_suffix _ _).trans
      ((applyActionPattern_suffix _ _).trans (applyActionPattern_suffix _ _)))

/-! ### Extraction-path soundness -/

theorem tryFencedBlock_sound {op text r : List Char}
    (h : tryFencedBlock op text = some r) :
    jsonLoadsOk r = true ∧ r <:+: text := by
  unfold tryFencedBlock at h
  cases h1 : findSubCI op text with
  | none => simp [h1] at h
  | some i =>
    simp only [h1] at h
    cases h2 : findSubCI fenceTickStr (text.drop (i + op.length)) with
    | none => simp [h2] at h
    | some j =>
      simp only [h2] at h
      by_cases hok : jsonLoadsOk (pyStrip ((text.drop (i + op.length)).take j)) = true
      · rw [if_pos hok] at h
        cases h
        refine ⟨hok, ?_⟩
        exact (pyStrip_isInfix _).trans
          (( List.take_prefix j (text.drop (i + op.length))).isInfix.trans
            (text.drop_suffix (i + op.length)).isInfix)
      · rw [if_neg hok] at h
        exact absurd h (by simp)

theorem braceSpan_isInfix {text span : List Char}
    (h : braceSpan text = some span) : span <:+: text := by
  unfold braceSpan at h
  cases h1 : text.findIdx? (· = braceO) with
  | none => simp [h1] at h
  | some i =>
    cases h2 : text.reverse.findIdx? (· = braceC) with
    | none => simp [h1, h2] at h
    | some jr =>
      simp only [h1, h2] at h
      by_cases hij : i < text.length - 1 - jr
      · rw [if_pos hij] at h
        cases h
        exact ( List.take_prefix _ (text.drop i)).isInfix.trans (text.drop_suffix i).isInfix
      · rw [if_neg hij] at h
        exact absurd h (by simp)

theorem balancedCandidate_isInfix {span cand : List Char}
    (h : balancedCandidate span = some cand) : cand <:+: span := by
  unfold balancedCandidate at h
  cases h1 : span.findIdx? (· = braceO) with
  | none => simp [h1] at h
  | some st =>
    simp only [h1] at h
    cases h2 : braceWalk (span.drop st) 0 0 with
    | none => simp [h2] at h
    | some len =>
      simp only [h2, Option.some.injEq] at h
      subst h
      exact ( List.take_prefix len (span.drop st)).isInfix.trans (span.drop_suffix st).isInfix

theorem wholeTextTry_sound {text r : List Char}
    (h : wholeTextTry text = some r) :
    jsonLoadsOk r = true ∧ r <:+: text := by
  unfold wholeTextTry at h
  by_cases hok : jsonLoadsOk (pyStrip text) = true
  · rw [if_pos hok] at h
    cases h
    exact ⟨hok, pyStrip_isInfix text⟩
  · rw [if_neg hok] at h
    exact absurd h (by simp)

theorem extractRest_sound {u s : List Char} (h : extractRest u = some s) :
    jsonLoadsOk s = true ∧ s <:+: pyStrip (applyActionPatterns u) := by
  unfold extractRest at h
  by_cases hemp : (pyStrip (applyActionPatterns u)).isEmpty = true
  · rw [if_pos hemp] at h; exact absurd h (by simp)
  · rw [if_neg hemp] at h
    cases h1 : tryFencedBlock fenceJsonStr (pyStrip (applyActionPatterns u)) with
    | some r =>
      simp only [h1, Option.some.injEq] at h
      subst h
      exact tryFencedBlock_sound h1
    | none =>
      simp only [h1] at h
      cases h2 : tryFencedBlock fenceTickStr (pyStrip (applyActionPatterns u)) with
      | some r =>
        simp only [h2, Option.some.injEq] at h
        subst h
        exact tryFencedBlock_sound h2
      | none =>
        simp only [h2] at h
        cases h3 : braceSpan (pyStrip (applyActionPatterns u)) with
        | some span =>
          simp only [h3] at h
          by_cases hok : jsonLoadsOk span = true
          · rw [if_pos hok] at h
            cases h
            exact ⟨hok, braceSpan_isInfix h3⟩
          · rw [if_neg hok] at h
            cases h4 : balancedCandidate span with
            | some cand =>
              simp only [h4] at h
              by_cases hok2 : jsonLoadsOk cand = true
              · rw [if_pos hok2] at h
                cases h
                exact ⟨hok2, (balancedCandidate_isInfix h4).trans (braceSpan_isInfix h3)⟩
              · rw [if_neg hok2] at h
                exact wholeTextTry_sound h
            | none =>
              simp only [h4] at h
              exact wholeTextTry_sound h
        | none =>
          simp only [h3] at h
          exact wholeTextTry_sound h

theorem extractJsonFromText_parses {t s : List Char}
    (h : extractJsonFromText t = some s) : jsonLoadsOk s = true :=
  (extractRest_sound h).1

theorem extractJsonFromText_isInfix {t s : List Char}
    (h : extractJsonFromText t = some s) : s <:+: sanitizeThink t := by
  have h1 := (extractRest_sound h).2
  exact h1.trans ((pyStrip_isInfix _).trans (applyActionPatterns_suffix _).isInfix)

theorem extractJsonFromText_no_think {t s : List Char}
    (h : extractJsonFromText t = some s) :
    containsSub thinkOpenStr (lowerStr s) = false := by
  have hinf : lowerStr s <:+: lowerStr (sanitizeThink t) :=
    (extractJsonFromText_isInfix h).map Char.toLower
  exact containsSub_infix_mono (sanitizeThink_no_open t) hinf

/-! ### Incompleteness-classifier characterisation -/

theorem indicator_strip (ind : List Char) (hind : ind ∈ incompleteIndicators)
    (u : List Char) : containsSub ind (pyStrip u) = containsSub ind u := by
  simp only [incompleteIndicators, List.mem_cons, List.not_mem_nil, or_false] at hind
  rcases hind with rfl | rfl | rfl | rfl | rfl | rfl | rfl | rfl | rfl <;>
    exact containsSub_pyStrip_eq rfl rfl (by decide) (by decide) u

theorem contains_braceO_eq (t : List Char) :
    t.contains braceO = decide (braceO ∈ t) := by
  simp [List.contains]

/-- Characterisation of `_is_incomplete_response`: true exactly when some
indicator of the fixed list occurs in the lowercased text and the text
contains no opening brace. -/
theorem isIncompleteResponse_characterisation (t : List Char) :
    isIncompleteResponse t = true ↔
      ((∃ ind ∈ incompleteIndicators, ind <:+: lowerStr t) ∧ braceO ∉ t) := by
  unfold isIncompleteResponse
  rw [List.any_eq_true]
  constructor
  · rintro ⟨ind, hmem, hcond⟩
    rw [Bool.and_eq_true] at hcond
    obtain ⟨h1, h2⟩ := hcond
    rw [indicator_strip ind hmem] at h1
    refine ⟨⟨ind, hmem, (containsSub_iff_isInfix _ _).mp h1⟩, ?_⟩
    rw [Bool.not_eq_true', contains_braceO_eq] at h2
    exact of_decide_eq_false h2
  · rintro ⟨⟨ind, hmem, hinf⟩, hnb⟩
    refine ⟨ind, hmem, ?_⟩
    rw [Bool.and_eq_true]
    constructor
    · rw [indicator_strip ind hmem]
      exact (containsSub_iff_isInfix _ _).mpr hinf
    · rw [Bool.not_eq_true', contains_braceO_eq]
      exact decide_eq_false hnb

/-! ### Conditions under which extraction returns its input unchanged -/

def allActionVariants : List (List Char) :=
  actionVariants1 ++ actionVariants2 ++ actionVariants3 ++ actionVariants4

theorem containsSub_false_to_findSub {n u : List Char}
    (h : containsSub n u = false) : findSub n u = none := by
  unfold containsSub at h
  cases hf : findSub n u with
  | none => rfl
  | some v => rw [hf] at h; simp at h

theorem findSubCI_some_isInfix {n s : List Char} {i : Nat}
    (h : findSubCI n s = some i) : n <:+: lowerStr s := by
  obtain ⟨hocc, -⟩ := findSub_some _ _ _ h
  exact infix_iff_occurs.mpr ⟨i, hocc⟩

theorem applyActionPatterns_id {s : List Char}
    (hact : ∀ v ∈ allActionVariants, ¬ v <:+: lowerStr s) :
    applyActionPatterns s = s := by
  have h1 : applyActionPattern actionVariants1 s = s :=
    applyActionPattern_id fun v hv => hact v (by simp [allActionVariants, hv])
  have h2 : applyActionPattern actionVariants2 s = s :=
    applyActionPattern_id fun v hv => hact v (by simp [allActionVariants, hv])
  have h3 : applyActionPattern actionVariants3 s = s :=
    applyActionPattern_id fun v hv => hact v (by simp [allActionVariants, hv])
  have h4 : applyActionPattern actionVariants4 s = s :=
    applyActionPattern_id fun v hv => hact v (by simp [allActionVariants, hv])
  unfold applyActionPatterns
  rw [h1, h2, h3, h4]

theorem sanitizeThink_id {s : List Char}
    (hnothink : containsSub thinkOpenStr (lowerStr s) = false) :
    sanitizeThink s = s := by
  have hopen : findSubCI thinkOpenStr s = none := containsSub_false_to_findSub hnothink
  unfold sanitizeThink
  rw [removeThinkBlocks_none hopen]
  unfold removeUnclosedThink
  rw [hopen]

theorem braceSpan_self {s : List Char}
    (hhead : s.head? = some braceO) (hlast : s.getLast? = some braceC) :
    braceSpan s = some s := by
  obtain ⟨t0, ht0⟩ := List.head?_eq_some_iff.mp hhead
  have hne : s ≠ [] := by rw [ht0]; exact List.cons_ne_nil _ _
  have hlen1 : 1 ≤ s.length := by
    rw [ht0]; simp
  have hlen2 : 2 ≤ s.length := by
    by_contra hcon
    have : s.length = 1 := by omega
    obtain ⟨a, ha⟩ := List.length_eq_one.mp this
    rw [ha] at hhead hlast
    simp only [List.head?_cons, Option.some.injEq] at hhead
    simp only [List.getLast?_singleton, Option.some.injEq] at hlast
    exact absurd (hhead.symm.trans hlast) (by decide)
  have hidx1 : s.findIdx? (· = braceO) = some 0 := by
    rw [ht0]
    simp
  obtain ⟨tr, htr⟩ : ∃ tr, s.reverse = braceC :: tr := by
    have : s.reverse.head? = some braceC := by
      rw [List.head?_reverse]; exact hlast
    exact List.head?_eq_some_iff.mp this
  have hidx2 : s.reverse.findIdx? (· = braceC) = some 0 := by
    rw [htr]
    simp
  unfold braceSpan
  rw [hidx1, hidx2]
  dsimp only
  have hguard : 0 < s.length - 1 - 0 := by omega
  rw [if_pos hguard]
  congr 1
  have : s.length - 1 - 0 - 0 + 1 = s.length := by omega
  rw [this, List.drop_zero, List.take_length]

theorem tryFencedBlock_none_of_no_fence {op text : List Char}
    (hop : fenceTickStr <+: op)
    (hfence : ¬ fenceTickStr <:+: lowerStr text) :
    tryFencedBlock op text = none := by
  unfold tryFencedBlock
  cases h1 : findSubCI op text with
  | none => rfl
  | some i =>
    exfalso
    exact hfence (hop.isInfix.trans (findSubCI_some_isInfix h1))

theorem extractRest_self {s : List Char}
    (hjson : jsonLoadsOk s = true)
    (hact : ∀ v ∈ allActionVariants, ¬ v <:+: lowerStr s)
    (hfence : ¬ fenceTickStr <:+: lowerStr s)
    (hhead : s.head? = some braceO)
    (hlast : s.getLast? = some braceC) :
    extractRest s = some s := by
  have hpats : applyActionPatterns s = s := applyActionPatterns_id hact
  have hstrip : pyStrip s = s :=
    pyStrip_eq_self hhead hlast (by decide) (by decide)
  have hne : s ≠ [] := by
    intro hcon
    rw [hcon] at hhead
    simp at hhead
  have hempty : s.isEmpty = false := List.isEmpty_eq_false.mpr hne
  have hf1 : tryFencedBlock fenceJsonStr s = none :=
    tryFencedBlock_none_of_no_fence (by decide) hfence
  have hf2 : tryFencedBlock fenceTickStr s = none :=
    tryFencedBlock_none_of_no_fence List.prefix_rfl hfence
  unfold extractRest
  rw [hpats, hstrip]
  simp only [hempty, Bool.false_eq_true, if_false, hf1, hf2,
    braceSpan_self hhead hlast, hjson, if_true]

theorem extractJsonFromText_self {s : List Char}
    (hjson : jsonLoadsOk s = true)
    (hnothink : containsSub thinkOpenStr (lowerStr s) = false)
    (hact : ∀ v ∈ allActionVariants, ¬ v <:+: lowerStr s)
    (hfence : ¬ fenceTickStr <:+: lowerStr s)
    (hhead : s.head? = some braceO)
    (hlast : s.getLast? = some braceC) :
    extractJsonFromText s = some s := by
  unfold extractJsonFromText
  rw [sanitizeThink_id hnothink]
  exact extractRest_self hjson hact hfence hhead hlast

/-! ### Transfer of leftmost occurrences along shared prefixes -/

theorem thinkOpen_len : thinkOpenStr.length = 7 := rfl

theorem thinkClose_len : thinkCloseStr.length = 8 := rfl

theorem lower_thinkOpen : lowerStr thinkOpenStr = thinkOpenStr := by decide

theorem lower_thinkClose : lowerStr thinkCloseStr = thinkCloseStr := by decide

theorem prefix_drop_congr_one {n u w : List Char} {m p : Nat}
    (htake : u.take m = w.take m) (hp : p + n.length ≤ m)
    (h : n <+: u.drop p) : n <+: w.drop p := by
  have h1 : n <+: (u.drop p).take (m - p) :=
    List.prefix_take_iff.mpr ⟨h, by omega⟩
  rw [← List.drop_take, htake, List.drop_take] at h1
  exact (List.prefix_take_iff.mp h1).1

theorem findSubCI_shared_prefix {n t t' : List Char} {i : Nat}
    (hfind : findSubCI n t = some i)
    (htake : t.take (i + n.length) = t'.take (i + n.length)) :
    findSubCI n t' = some i := by
  obtain ⟨hocc, hmin⟩ := findSub_some _ _ _ hfind
  have hlow : (lowerStr t).take (i + n.length) = (lowerStr t').take (i + n.length) := by
    rw [← lowerStr_take, ← lowerStr_take, htake]
  apply findSub_intro
  · exact prefix_drop_congr_one hlow (by omega) hocc
  · intro p hp hcon
    exact hmin p hp (prefix_drop_congr_one hlow.symm (by omega) hcon)

theorem findSubCI_close_head (b : List Char) :
    findSubCI thinkCloseStr (thinkCloseStr ++ b) = some 0 := by
  apply findSub_intro
  · rw [List.drop_zero, lowerStr_append, lower_thinkClose]
    exact List.prefix_append _ _
  · intro p hp
    exact absurd hp (by omega)

/-! ### Claims C1, C2, C5, C10: the sanitizer -/

/-- C1 (amended): whenever `_extract_json_from_text` returns a string,
that string parses under `json.loads` — every return path verifies
parseability before returning.  It is not guaranteed to be a JSON
*object*: the fenced-block and whole-text paths accept any JSON value
(see the counterexample). -/
theorem C1_extracted_string_parses (t s : List Char)
    (h : extractJsonFromText t = some s) : jsonLoadsOk s = true :=
  extractJsonFromText_parses h

/-- Witness for C1 at a concrete input. -/
theorem C1_extracted_string_parses_witness :
    extractJsonFromText "\x7b\"b\": 2\x7d".data = some "\x7b\"b\": 2\x7d".data ∧
    jsonLoadsOk "\x7b\"b\": 2\x7d".data = true :=
  ⟨by decide, C1_extracted_string_parses "\x7b\"b\": 2\x7d".data "\x7b\"b\": 2\x7d".data (by decide)⟩

/-- C1 counterexample: on input `42` the extractor returns `42` through
the whole-text fallback; `42` parses as a JSON number, not as a JSON
object, refuting the claim that a returned string is guaranteed to parse
as a single JSON object. -/
theorem C1_counterexample :
    extractJsonFromText "42".data = some "42".data ∧
    jsonLoadsObj "42".data = false :=
  ⟨by decide, by decide⟩

/-- C2: on `noise \x7b "a": 1 \x7d more noise \x7b "b": 2 \x7d trailing`
the greedy first-brace-to-last-brace span fails to parse, the
balanced-brace scan cuts the span at the first return to depth zero —
the first balanced span `\x7b "a": 1 \x7d` starting at the first brace —
and extraction returns exactly that span, never scanning on to the
second object. -/
theorem C2_balanced_scan_stops_at_first_span :
    braceSpan "noise \x7b \"a\": 1 \x7d more noise \x7b \"b\": 2 \x7d trailing".data =
      some "\x7b \"a\": 1 \x7d more noise \x7b \"b\": 2 \x7d".data ∧
    jsonLoadsOk "\x7b \"a\": 1 \x7d more noise \x7b \"b\": 2 \x7d".data = false ∧
    balancedCandidate "\x7b \"a\": 1 \x7d more noise \x7b \"b\": 2 \x7d".data =
      some "\x7b \"a\": 1 \x7d".data ∧
    extractJsonFromText "noise \x7b \"a\": 1 \x7d more noise \x7b \"b\": 2 \x7d trailing".data =
      some "\x7b \"a\": 1 \x7d".data :=
  ⟨by decide, by decide, by decide, by decide⟩

/-- C5 (amended): `_extract_json_from_text` is idempotent on outputs
that are brace-delimited (first character an opening brace, last a
closing brace) and contain, case-insensitively, no code-fence marker and
no action-narration phrase: re-running the extractor on such an output
returns it unchanged.  (Unconditional idempotence fails; the
counterexample exhibits outputs violating each added condition.) -/
theorem C5_idempotent_on_clean_outputs (t s : List Char)
    (h : extractJsonFromText t = some s)
    (hact : ∀ v ∈ allActionVariants, ¬ v <:+: lowerStr s)
    (hfence : ¬ fenceTickStr <:+: lowerStr s)
    (hhead : s.head? = some braceO)
    (hlast : s.getLast? = some braceC) :
    extractJsonFromText s = some s :=
  extractJsonFromText_self (extractJsonFromText_parses h)
    (extractJsonFromText_no_think h) hact hfence hhead hlast

/-- Witness for C5 on a clean brace-delimited output. -/
theorem C5_idempotent_on_clean_outputs_witness :
    (extractJsonFromText "\x7b\"a\": 1\x7d".data = some "\x7b\"a\": 1\x7d".data ∧
      (∀ v ∈ allActionVariants, ¬ v <:+: lowerStr "\x7b\"a\": 1\x7d".data) ∧
      ¬ fenceTickStr <:+: lowerStr "\x7b\"a\": 1\x7d".data ∧
      "\x7b\"a\": 1\x7d".data.head? = some braceO ∧
      "\x7b\"a\": 1\x7d".data.getLast? = some braceC) ∧
    extractJsonFromText "\x7b\"a\": 1\x7d".data = some "\x7b\"a\": 1\x7d".data :=
  ⟨⟨by decide, by decide, by decide, by decide, by decide⟩,
    C5_idempotent_on_clean_outputs "\x7b\"a\": 1\x7d".data "\x7b\"a\": 1\x7d".data
      (by decide) (by decide) (by decide) (by decide) (by decide)⟩

/-- C5 counterexample: idempotence fails as stated.  First, the negation
of the claim: the output `\x7b"a": "let me fetch stuff"\x7d` (produced
from an input with a leading narration phrase) is scrubbed to nothing by
a second run.  The further conjuncts exhibit outputs violating the other
two conditions the amendment adds: an output carrying a code fence
inside a string value, on which a second run returns the fenced `1`
instead, and an array output, on which a second run returns the inner
object via the brace span. -/
theorem C5_counterexample :
    (¬ ∀ t s : List Char,
        extractJsonFromText t = some s → extractJsonFromText s = some s) ∧
    (extractJsonFromText "```json``` \x7b\"a\": \"```json 1 ```\"\x7d".data =
        some "\x7b\"a\": \"```json 1 ```\"\x7d".data ∧
      extractJsonFromText "\x7b\"a\": \"```json 1 ```\"\x7d".data = some "1".data) ∧
    (extractJsonFromText "```json\n[\x7b\"a\": 1\x7d]\n```".data =
        some "[\x7b\"a\": 1\x7d]".data ∧
      extractJsonFromText "[\x7b\"a\": 1\x7d]".data = some "\x7b\"a\": 1\x7d".data) := by
  refine ⟨?_, ⟨by decide, by decide⟩, ⟨by decide, by decide⟩⟩
  intro hcl
  have h1 := hcl "let me fetch \x7b\"a\": \"let me fetch stuff\"\x7d".data
    "\x7b\"a\": \"let me fetch stuff\"\x7d".data (by decide)
  have h2 : extractJsonFromText "\x7b\"a\": \"let me fetch stuff\"\x7d".data = none := by
    decide
  rw [h2] at h1
  exact absurd h1 (by decide)

/-- C10: an input that itself parses as a valid JSON object on which the
extractor returns nothing: the action-leak scrub matches the narration
phrase inside the object's string value, deletes from the start of the
text through that phrase and all following non-brace characters — here,
to the end — and extraction reports no JSON found. -/
theorem C10_valid_object_scrubbed_to_nothing :
    jsonLoadsObj "\x7b\"note\": \"let me fetch data\"\x7d".data = true ∧
    extractJsonFromText "\x7b\"note\": \"let me fetch data\"\x7d".data = none :=
  ⟨by decide, by decide⟩

/-! ### Claims C4, C8, C9, C3: classifier and orchestrator -/

/-- C4: `_is_incomplete_response` returns true if and only if the text
contains, case-insensitively, at least one indicator of the fixed
action-narration list and the text contains no opening brace anywhere.
(The classifier lowercases and strips the text before the indicator
test; stripping cannot create or destroy an occurrence since every
indicator begins and ends with a non-whitespace character.) -/
theorem C4_incompleteness_iff (t : List Char) :
    isIncompleteResponse t = true ↔
      ((∃ ind ∈ incompleteIndicators, ind <:+: lowerStr t) ∧ braceO ∉ t) :=
  isIncompleteResponse_characterisation t

/-- Witness for C4: the characterisation applied at a concrete
narration-only text. -/
theorem C4_incompleteness_iff_witness :
    isIncompleteResponse "Searching for data now".data = true :=
  (C4_incompleteness_iff "Searching for data now".data).mpr (by decide)

/-- C8: a reply with zero choices, and a reply whose first choice has
empty content, each terminate the call at once with the corresponding
empty-response failure, performing zero delays/retries — whatever
replies would follow and whatever the current retry count, so the check
comes before incompleteness classification and no retry is attempted. -/
theorem C8_empty_reply_fails_without_retry
    (rest : List (List (List Char))) (rc : Nat) :
    perplexityParsePydantic (([] : List (List Char)) :: rest) rc =
      some (0, POutcome.noChoices) ∧
    perplexityParsePydantic ([([] : List Char)] :: rest) rc =
      some (0, POutcome.emptyContent) := by
  constructor
  · rfl
  · rfl

/-- Witness for C8 at a concrete reply list. -/
theorem C8_empty_reply_fails_without_retry_witness :
    perplexityParsePydantic [([] : List (List Char))] 0 =
      some (0, POutcome.noChoices) ∧
    perplexityParsePydantic [[([] : List Char)]] 0 =
      some (0, POutcome.emptyContent) :=
  C8_empty_reply_fails_without_retry [] 0

/-- C9: the malformed-JSON branch of `perplexity_parse_pydantic` is
unreachable: whatever the reply stream and retry count, the outcome is
never `malformedJson`, because every string `_extract_json_from_text`
returns has already been verified to parse. -/
theorem C9_malformed_branch_unreachable
    (replies : List (List (List Char))) (rc : Nat) (p : Nat × POutcome)
    (h : perplexityParsePydantic replies rc = some p) :
    p.2 ≠ POutcome.malformedJson := by
  induction replies generalizing rc p with
  | nil => simp [perplexityParsePydantic] at h
  | cons r rest ih =>
    rw [perplexityParsePydantic.eq_def] at h
    cases r with
    | nil =>
      simp only [Option.some.injEq] at h
      rw [← h]
      decide
    | cons content tail =>
      dsimp only at h
      by_cases hemp : content.isEmpty = true
      · rw [if_pos hemp] at h
        simp only [Option.some.injEq] at h
        rw [← h]
        decide
      · rw [if_neg hemp] at h
        by_cases hinc : (isIncompleteResponse content && decide (rc < MAX_RETRIES)) = true
        · rw [if_pos hinc] at h
          cases hrec : perplexityParsePydantic rest (rc + 1) with
          | none => rw [hrec] at h; simp at h
          | some q =>
            obtain ⟨d, o⟩ := q
            rw [hrec] at h
            simp only [Option.some.injEq] at h
            rw [← h]
            exact ih (rc + 1) (d, o) hrec
        · rw [if_neg hinc] at h
          cases hext : extractJsonFromText content with
          | none =>
            simp only [hext, Option.some.injEq] at h
            rw [← h]
            simp
          | some s =>
            simp only [hext] at h
            rw [if_pos (extractJsonFromText_parses hext)] at h
            simp only [Option.some.injEq] at h
            rw [← h]
            simp

/-- Witness for C9 at a concrete successful run. -/
theorem C9_malformed_branch_unreachable_witness :
    perplexityParsePydantic [["\x7b\"a\": 1\x7d".data]] 0 =
      some (0, POutcome.parsedJson "\x7b\"a\": 1\x7d".data) ∧
    ((0 : Nat), POutcome.parsedJson "\x7b\"a\": 1\x7d".data).2 ≠
      POutcome.malformedJson :=
  ⟨by decide,
    C9_malformed_branch_unreachable [["\x7b\"a\": 1\x7d".data]] 0
      (0, POutcome.parsedJson "\x7b\"a\": 1\x7d".data) (by decide)⟩

/-- C3 (amended): on the narration-only response "Let me search for that
information" (no brace) the classifier marks the response incomplete;
with retry budget remaining the orchestrator waits one fixed 1-unit
delay and performs one sequential retry per incomplete reply, up to
`MAX_RETRIES = 2` retries (three attempts in total): if the upstream
reply is still incomplete after two retries the call gives up with an
extraction failure, while a complete second reply ends the run after
exactly one delayed retry. -/
theorem C3_retry_behaviour :
    isIncompleteResponse "Let me search for that information".data = true ∧
    MAX_RETRIES = 2 ∧
    perplexityParsePydantic
      [["Let me search for that information".data],
       ["Let me search for that information".data],
       ["Let me search for that information".data]] 0 =
      some (2, POutcome.extractionFailed "Let me search for that information".data) ∧
    perplexityParsePydantic
      [["Let me search for that information".data], ["\x7b\"a\": 1\x7d".data]] 0 =
      some (1, POutcome.parsedJson "\x7b\"a\": 1\x7d".data) :=
  ⟨by decide, by decide, by decide, by decide⟩

/-- C3 counterexample: the orchestrator does not give up after exactly
one retry when the response stays incomplete — with a persistent
incomplete reply the run records two delayed retries (three upstream
attempts) before failing, refuting "exactly one retry before giving up"
and a total budget of two attempts. -/
theorem C3_counterexample :
    perplexityParsePydantic
      [["Let me search for that information".data],
       ["Let me search for that information".data],
       ["Let me search for that information".data]] 0 =
      some (2, POutcome.extractionFailed "Let me search for that information".data) ∧
    ¬ (∃ o : POutcome, perplexityParsePydantic
        [["Let me search for that information".data],
         ["Let me search for that information".data],
         ["Let me search for that information".data]] 0 = some (1, o)) := by
  refine ⟨by decide, ?_⟩
  rintro ⟨o, ho⟩
  have : (2, POutcome.extractionFailed "Let me search for that information".data) =
      ((1 : Nat), o) := by
    have h1 : perplexityParsePydantic
        [["Let me search for that information".data],
         ["Let me search for that information".data],
         ["Let me search for that information".data]] 0 =
        some (2, POutcome.extractionFailed "Let me search for that information".data) := by
      decide
    rw [h1] at ho
    exact Option.some.inj ho
  simp at this

/-! ### Splitting prefixes across appends, and marker no-straddle facts -/

theorem drop_ge (A B : List Char) (p : Nat) (h : A.length ≤ p) :
    (A ++ B).drop p = B.drop (p - A.length) := by
  have e : p = A.length + (p - A.length) := by omega
  rw [e, List.drop_append]
  congr 1
  omega

theorem openLen_append (u : List Char) : (u ++ thinkOpenStr).length = u.length + 7 := by
  simp [thinkOpen_len]

theorem drop_boundary (u y : List Char) :
    (u ++ thinkOpenStr ++ y).drop (u.length + 7) = y :=
  List.drop_left' (openLen_append u)

theorem drop_inner {i : Nat} (u y : List Char) (h : i + 7 ≤ u.length) :
    (u ++ thinkOpenStr ++ y).drop (i + 7) = (u.drop (i + 7)) ++ thinkOpenStr ++ y := by
  rw [List.append_assoc, List.drop_append_of_le_length (by omega), ← List.append_assoc]

theorem take_inner {k : Nat} (u y : List Char) (h : k ≤ u.length) :
    (u ++ thinkOpenStr ++ y).take k = u.take k := by
  rw [List.append_assoc, List.take_append_of_le_length h]

theorem drop_far (x y : List Char) (r : Nat) :
    (x ++ thinkOpenStr ++ y).drop (x.length + 7 + r) = y.drop r := by
  have e : x.length + 7 + r = (x ++ thinkOpenStr).length + r := by
    rw [openLen_append]
  rw [e, List.drop_append]

theorem lower_decomp (u y : List Char) :
    lowerStr (u ++ thinkOpenStr ++ y) = lowerStr u ++ thinkOpenStr ++ lowerStr y := by
  rw [lowerStr_append, lowerStr_append, lower_thinkOpen]

theorem prefix_split_left {n A B : List Char} (h : n <+: A ++ B)
    (hlen : A.length ≤ n.length) : A = n.take A.length := by
  obtain ⟨r, hr⟩ := h
  have e : (n ++ r).take A.length = (A ++ B).take A.length := by rw [hr]
  rw [List.take_append_of_le_length hlen, List.take_left] at e
  exact e.symm

theorem prefix_split_right {n A B : List Char} (h : n <+: A ++ B)
    (hlen : A.length ≤ n.length) : n.drop A.length <+: B := by
  obtain ⟨r, hr⟩ := h
  have hB : (n ++ r).drop A.length = B := by rw [hr, List.drop_left]
  rw [List.drop_append_of_le_length hlen] at hB
  exact ⟨r, hB⟩

theorem prefix_confine {n A B : List Char} (h : n <+: A ++ B)
    (hlen : n.length ≤ A.length) : n <+: A := by
  have h2 : n <+: (A ++ B).take A.length := List.prefix_take_iff.mpr ⟨h, hlen⟩
  rwa [List.take_left] at h2

theorem close_not_in_open_zone (y : List Char) (p : Nat) (hp : p < 7) :
    ¬ thinkCloseStr <+: (thinkOpenStr ++ y).drop p := by
  intro h
  rw [List.drop_append_of_le_length (by rw [thinkOpen_len]; omega)] at h
  have hlen : (thinkOpenStr.drop p).length ≤ thinkCloseStr.length := by
    simp only [List.length_drop, thinkOpen_len, thinkClose_len]
    omega
  have heq := prefix_split_left h hlen
  interval_cases p <;> exact absurd heq (by decide)

theorem open_not_straddle (A y : List Char) (h1 : 1 ≤ A.length) (h6 : A.length ≤ 6) :
    ¬ thinkOpenStr <+: A ++ (thinkOpenStr ++ y) := by
  intro h
  have hd := prefix_split_right h (by rw [thinkOpen_len]; omega)
  have hc := prefix_confine hd
    (by simp only [List.length_drop, thinkOpen_len]; omega)
  have heq := List.prefix_iff_eq_take.mp hc
  set m := A.length with hm
  interval_cases m <;> exact absurd heq (by decide)

theorem close_not_straddle_open (A y : List Char) (h1 : 1 ≤ A.length) (h7 : A.length ≤ 7) :
    ¬ thinkCloseStr <+: A ++ (thinkOpenStr ++ y) := by
  intro h
  have hd := prefix_split_right h (by rw [thinkClose_len]; omega)
  have hc := prefix_confine hd
    (by simp only [List.length_drop, thinkClose_len, thinkOpen_len]; omega)
  have heq := List.prefix_iff_eq_take.mp hc
  set m := A.length with hm
  interval_cases m <;> exact absurd heq (by decide)

theorem close_not_straddle_close (A v : List Char) (h1 : 1 ≤ A.length) (h7 : A.length ≤ 7) :
    ¬ thinkCloseStr <+: A ++ (thinkCloseStr ++ v) := by
  intro h
  have hd := prefix_split_right h (by rw [thinkClose_len]; omega)
  have hc := prefix_confine hd
    (by simp only [List.length_drop, thinkClose_len]; omega)
  have heq := List.prefix_iff_eq_take.mp hc
  set m := A.length with hm
  interval_cases m <;> exact absurd heq (by decide)

/-! ### Leftmost-occurrence facts across a marker boundary -/

theorem occurs_extend {n x : List Char} {p : Nat} (T : List Char)
    (h : n <+: (lowerStr x).drop p) (hne : n ≠ []) :
    n <+: (lowerStr x ++ T).drop p := by
  have hb := prefix_drop_length h hne
  rw [List.drop_append_of_le_length (by omega)]
  exact h.trans (List.prefix_append _ _)

theorem occurs_confine {n x : List Char} {p : Nat} (T : List Char)
    (h : n <+: (lowerStr x ++ T).drop p) (hb : p + n.length ≤ x.length) :
    n <+: (lowerStr x).drop p := by
  rw [List.drop_append_of_le_length (by rw [lowerStr_length]; omega)] at h
  exact prefix_confine h
    (by simp only [List.length_drop, lowerStr_length]; omega)

theorem findCI_lift {n x : List Char} {j : Nat} (T : List Char)
    (hne : n ≠ []) (h : findSub n (lowerStr x) = some j) :
    findSub n (lowerStr x ++ T) = some j := by
  obtain ⟨hocc, hmin⟩ := findSub_some _ _ _ h
  have hb : j + n.length ≤ x.length := by
    have := prefix_drop_length hocc hne
    simpa [lowerStr_length] using this
  apply findSub_intro
  · exact occurs_extend T hocc hne
  · intro p hp hcon
    exact hmin p hp (occurs_confine T hcon (by omega))

theorem findCI_lift_open {u : List Char} {i : Nat} (y : List Char)
    (h : findSubCI thinkOpenStr u = some i) :
    findSubCI thinkOpenStr (u ++ thinkOpenStr ++ y) = some i := by
  unfold findSubCI at h ⊢
  rw [lower_decomp, List.append_assoc]
  exact findCI_lift _ thinkOpen_ne h

theorem findCI_lift_close {x : List Char} {j : Nat} (y : List Char)
    (h : findSubCI thinkCloseStr x = some j) :
    findSubCI thinkCloseStr (x ++ thinkOpenStr ++ y) = some j := by
  unfold findSubCI at h ⊢
  rw [lower_decomp, List.append_assoc]
  exact findCI_lift _ thinkClose_ne h

theorem findCI_open_boundary {u : List Char} (y : List Char)
    (h : findSubCI thinkOpenStr u = none) :
    findSubCI thinkOpenStr (u ++ thinkOpenStr ++ y) = some u.length := by
  unfold findSubCI at h ⊢
  rw [findSub_none_iff] at h
  rw [lower_decomp, List.append_assoc]
  apply findSub_intro
  · have e : (lowerStr u ++ (thinkOpenStr ++ lowerStr y)).drop u.length =
        thinkOpenStr ++ lowerStr y := List.drop_left' (lowerStr_length u)
    rw [e]
    exact List.prefix_append _ _
  · intro p hp hcon
    by_cases hwithin : p + 7 ≤ u.length
    · exact h p (occurs_confine _ hcon (by rw [thinkOpen_len]; omega))
    · have e : (lowerStr u ++ (thinkOpenStr ++ lowerStr y)).drop p =
          (lowerStr u).drop p ++ (thinkOpenStr ++ lowerStr y) :=
        List.drop_append_of_le_length (by rw [lowerStr_length]; omega)
      rw [e] at hcon
      exact open_not_straddle _ _
        (by simp only [List.length_drop, lowerStr_length]; omega)
        (by simp only [List.length_drop, lowerStr_length]; omega) hcon

theorem close_occ_classify {A B : List Char} {p : Nat}
    (h : thinkCloseStr <+: (A ++ (thinkOpenStr ++ B)).drop p) :
    (p + 8 ≤ A.length ∧ thinkCloseStr <+: A.drop p) ∨
    (A.length + 7 ≤ p ∧ thinkCloseStr <+: B.drop (p - A.length - 7)) := by
  by_cases h1 : p + 8 ≤ A.length
  · left
    refine ⟨h1, ?_⟩
    rw [List.drop_append_of_le_length (by omega)] at h
    exact prefix_confine h
      (by simp only [List.length_drop, thinkClose_len]; omega)
  · by_cases h2 : A.length + 7 ≤ p
    · right
      refine ⟨h2, ?_⟩
      have e1 : (A ++ (thinkOpenStr ++ B)).drop p =
          (thinkOpenStr ++ B).drop (p - A.length) := drop_ge A _ p (by omega)
      have e2 : (thinkOpenStr ++ B).drop (p - A.length) = B.drop (p - A.length - 7) := by
        have e3 : p - A.length = thinkOpenStr.length + (p - A.length - 7) := by
          rw [thinkOpen_len]; omega
        conv_lhs => rw [e3]
        rw [List.drop_append]
      rw [e1, e2] at h
      exact h
    · exfalso
      by_cases h3 : p < A.length
      · rw [List.drop_append_of_le_length (by omega)] at h
        exact close_not_straddle_open (A.drop p) B
          (by simp only [List.length_drop]; omega)
          (by simp only [List.length_drop]; omega) h
      · have e : (A ++ (thinkOpenStr ++ B)).drop p =
            (thinkOpenStr ++ B).drop (p - A.length) := drop_ge A _ p (by omega)
        rw [e] at h
        exact close_not_in_open_zone B (p - A.length) (by omega) h

theorem findCI_close_none {x y : List Char}
    (hx : findSubCI thinkCloseStr x = none)
    (hy : findSubCI thinkCloseStr y = none) :
    findSubCI thinkCloseStr (x ++ thinkOpenStr ++ y) = none := by
  unfold findSubCI at hx hy ⊢
  rw [findSub_none_iff] at hx hy
  rw [lower_decomp, List.append_assoc, findSub_none_iff]
  intro p hcon
  rcases close_occ_classify hcon with ⟨hb, hocc⟩ | ⟨hb, hocc⟩
  · exact hx p hocc
  · exact hy _ hocc

theorem findCI_close_tail {x y : List Char} {q : Nat}
    (hx : findSubCI thinkCloseStr x = none)
    (hy : findSubCI thinkCloseStr y = some q) :
    findSubCI thinkCloseStr (x ++ thinkOpenStr ++ y) = some (x.length + 7 + q) := by
  obtain ⟨hocc, hmin⟩ := findSub_some _ _ _ hy
  unfold findSubCI at hx ⊢
  rw [findSub_none_iff] at hx
  rw [lower_decomp, List.append_assoc]
  apply findSub_intro
  · have e : (lowerStr x ++ (thinkOpenStr ++ lowerStr y)).drop (x.length + 7 + q) =
        (lowerStr y).drop q := by
      rw [← List.append_assoc]
      have e2 : x.length + 7 + q = (lowerStr x ++ thinkOpenStr).length + q := by
        simp only [List.length_append, lowerStr_length, thinkOpen_len]
      rw [e2, List.drop_append]
    rw [e]
    exact hocc
  · intro p hp hcon
    rcases close_occ_classify hcon with ⟨hb, hocc2⟩ | ⟨hb, hocc2⟩
    · exact hx p hocc2
    · have hL := lowerStr_length x
      have hlt : p - (lowerStr x).length - 7 < q := by omega
      exact hmin _ hlt hocc2

theorem find_close_pair_content {c : List Char} (v : List Char)
    (hc : findSubCI thinkCloseStr c = none) :
    findSubCI thinkCloseStr (c ++ thinkCloseStr ++ v) = some c.length := by
  unfold findSubCI at hc ⊢
  rw [findSub_none_iff] at hc
  rw [lowerStr_append, lowerStr_append, lower_thinkClose, List.append_assoc]
  apply findSub_intro
  · have e : (lowerStr c ++ (thinkCloseStr ++ lowerStr v)).drop c.length =
        thinkCloseStr ++ lowerStr v := List.drop_left' (lowerStr_length c)
    rw [e]
    exact List.prefix_append _ _
  · intro p hp hcon
    have e : (lowerStr c ++ (thinkCloseStr ++ lowerStr v)).drop p =
        (lowerStr c).drop p ++ (thinkCloseStr ++ lowerStr v) :=
      List.drop_append_of_le_length (by rw [lowerStr_length]; omega)
    rw [e] at hcon
    by_cases hwithin : p + 8 ≤ c.length
    · exact hc p (prefix_confine hcon
        (by simp only [List.length_drop, lowerStr_length, thinkClose_len]; omega))
    · exact close_not_straddle_close _ _
        (by simp only [List.length_drop, lowerStr_length]; omega)
        (by simp only [List.length_drop, lowerStr_length]; omega) hcon

/-! ### Lockstep behaviour of paired-block removal across a marker -/

theorem rtb_unclosed : ∀ (L : Nat) (u z : List Char), u.length ≤ L →
    findSubCI thinkCloseStr z = none →
    ∃ w : List Char,
      removeThinkBlocks (u ++ thinkOpenStr ++ z) = w ++ thinkOpenStr ++ z ∧
      removeThinkBlocks u = w := by
  intro L
  induction L using Nat.strong_induction_on with
  | _ L IH =>
    intro u z hL hz
    cases hou : findSubCI thinkOpenStr u with
    | none =>
      refine ⟨u, ?_, removeThinkBlocks_none hou⟩
      have hopen := findCI_open_boundary z hou
      have hclose : findSubCI thinkCloseStr
          ((u ++ thinkOpenStr ++ z).drop (u.length + 7)) = none := by
        rw [drop_boundary]
        exact hz
      exact removeThinkBlocks_noClose hopen hclose
    | some i =>
      have hbound : i + 7 ≤ u.length := findSubCI_open_bound hou
      have hopen := findCI_lift_open z hou
      cases hxc : findSubCI thinkCloseStr (u.drop (i + 7)) with
      | none =>
        refine ⟨u, ?_, removeThinkBlocks_noClose hou hxc⟩
        have hclose : findSubCI thinkCloseStr
            ((u ++ thinkOpenStr ++ z).drop (i + 7)) = none := by
          rw [drop_inner u z hbound]
          exact findCI_close_none hxc hz
        exact removeThinkBlocks_noClose hopen hclose
      | some j =>
        have hjb : j + 8 ≤ (u.drop (i + 7)).length := findSubCI_close_bound hxc
        have hclose : findSubCI thinkCloseStr
            ((u ++ thinkOpenStr ++ z).drop (i + 7)) = some j := by
          rw [drop_inner u z hbound]
          exact findCI_lift_close z hxc
        have hstep1 := removeThinkBlocks_step hopen hclose
        have hstep2 := removeThinkBlocks_step hou hxc
        have hrem : ((u ++ thinkOpenStr ++ z).drop (i + 7)).drop (j + 8) =
            ((u.drop (i + 7)).drop (j + 8)) ++ thinkOpenStr ++ z := by
          rw [drop_inner u z hbound, List.append_assoc,
            List.drop_append_of_le_length (by omega), ← List.append_assoc]
        have hlt : ((u.drop (i + 7)).drop (j + 8)).length < L := by
          simp only [List.length_drop] at hjb ⊢
          omega
        obtain ⟨w', hw1, hw2⟩ := IH ((u.drop (i + 7)).drop (j + 8)).length hlt
          ((u.drop (i + 7)).drop (j + 8)) z (le_refl _) hz
        refine ⟨u.take i ++ w', ?_, ?_⟩
        · rw [hstep1, hrem, hw1, take_inner u z (by omega)]
          simp [List.append_assoc]
        · rw [hstep2, hw2]

theorem removeUnclosed_boundary (w z : List Char) :
    removeUnclosedThink (w ++ thinkOpenStr ++ z) = removeUnclosedThink w := by
  cases hw : findSubCI thinkOpenStr w with
  | none =>
    simp only [removeUnclosedThink, hw, findCI_open_boundary z hw]
    rw [take_inner w z (le_refl _), List.take_length]
  | some q =>
    have hb : q + 7 ≤ w.length := findSubCI_open_bound hw
    simp only [removeUnclosedThink, hw, findCI_lift_open z hw]
    exact take_inner w z (by omega)

theorem sanitize_unclosed {u z : List Char}
    (hz : findSubCI thinkCloseStr z = none) :
    sanitizeThink (u ++ thinkOpenStr ++ z) = sanitizeThink u := by
  obtain ⟨w, h1, h2⟩ := rtb_unclosed u.length u z (le_refl _) hz
  unfold sanitizeThink
  rw [h1, h2, removeUnclosed_boundary]

theorem rtb_pairdel : ∀ (L : Nat) (u y1 y2 : List Char), u.length ≤ L →
    ∀ q1 q2 : Nat, findSubCI thinkCloseStr y1 = some q1 →
    findSubCI thinkCloseStr y2 = some q2 →
    y1.drop (q1 + 8) = y2.drop (q2 + 8) →
    removeThinkBlocks (u ++ thinkOpenStr ++ y1) =
      removeThinkBlocks (u ++ thinkOpenStr ++ y2) := by
  intro L
  induction L using Nat.strong_induction_on with
  | _ L IH =>
    intro u y1 y2 hL q1 q2 hq1 hq2 hrem
    cases hou : findSubCI thinkOpenStr u with
    | none =>
      have ho1 := findCI_open_boundary y1 hou
      have ho2 := findCI_open_boundary y2 hou
      have hc1 : findSubCI thinkCloseStr
          ((u ++ thinkOpenStr ++ y1).drop (u.length + 7)) = some q1 := by
        rw [drop_boundary]; exact hq1
      have hc2 : findSubCI thinkCloseStr
          ((u ++ thinkOpenStr ++ y2).drop (u.length + 7)) = some q2 := by
        rw [drop_boundary]; exact hq2
      rw [removeThinkBlocks_step ho1 hc1, removeThinkBlocks_step ho2 hc2,
        take_inner u y1 (le_refl _), take_inner u y2 (le_refl _),
        drop_boundary, drop_boundary, hrem]
    | some i =>
      have hbound : i + 7 ≤ u.length := findSubCI_open_bound hou
      have ho1 := findCI_lift_open y1 hou
      have ho2 := findCI_lift_open y2 hou
      cases hxc : findSubCI thinkCloseStr (u.drop (i + 7)) with
      | some j =>
        have hjb : j + 8 ≤ (u.drop (i + 7)).length := findSubCI_close_bound hxc
        have hc1 : findSubCI thinkCloseStr
            ((u ++ thinkOpenStr ++ y1).drop (i + 7)) = some j := by
          rw [drop_inner u y1 hbound]; exact findCI_lift_close y1 hxc
        have hc2 : findSubCI thinkCloseStr
            ((u ++ thinkOpenStr ++ y2).drop (i + 7)) = some j := by
          rw [drop_inner u y2 hbound]; exact findCI_lift_close y2 hxc
        rw [removeThinkBlocks_step ho1 hc1, removeThinkBlocks_step ho2 hc2,
          take_inner u y1 (by omega), take_inner u y2 (by omega)]
        congr 1
        have e1 : ((u ++ thinkOpenStr ++ y1).drop (i + 7)).drop (j + 8) =
            ((u.drop (i + 7)).drop (j + 8)) ++ thinkOpenStr ++ y1 := by
          rw [drop_inner u y1 hbound, List.append_assoc,
            List.drop_append_of_le_length (by omega), ← List.append_assoc]
        have e2 : ((u ++ thinkOpenStr ++ y2).drop (i + 7)).drop (j + 8) =
            ((u.drop (i + 7)).drop (j + 8)) ++ thinkOpenStr ++ y2 := by
          rw [drop_inner u y2 hbound, List.append_assoc,
            List.drop_append_of_le_length (by omega), ← List.append_assoc]
        rw [e1, e2]
        have hlt : ((u.drop (i + 7)).drop (j + 8)).length < L := by
          simp only [List.length_drop] at hjb ⊢
          omega
        exact IH ((u.drop (i + 7)).drop (j + 8)).length hlt
          ((u.drop (i + 7)).drop (j + 8)) y1 y2 (le_refl _) q1 q2 hq1 hq2 hrem
      | none =>
        have hc1 : findSubCI thinkCloseStr
            ((u ++ thinkOpenStr ++ y1).drop (i + 7)) =
            some ((u.drop (i + 7)).length + 7 + q1) := by
          rw [drop_inner u y1 hbound]; exact findCI_close_tail hxc hq1
        have hc2 : findSubCI thinkCloseStr
            ((u ++ thinkOpenStr ++ y2).drop (i + 7)) =
            some ((u.drop (i + 7)).length + 7 + q2) := by
          rw [drop_inner u y2 hbound]; exact findCI_close_tail hxc hq2
        rw [removeThinkBlocks_step ho1 hc1, removeThinkBlocks_step ho2 hc2,
          take_inner u y1 (by omega), take_inner u y2 (by omega)]
        congr 1
        have e1 : ((u ++ thinkOpenStr ++ y1).drop (i + 7)).drop
            ((u.drop (i + 7)).length + 7 + q1 + 8) = y1.drop (q1 + 8) := by
          rw [drop_inner u y1 hbound]
          have e : (u.drop (i + 7)).length + 7 + q1 + 8 =
              (u.drop (i + 7)).length + 7 + (q1 + 8) := by omega
          rw [e, drop_far]
        have e2 : ((u ++ thinkOpenStr ++ y2).drop (i + 7)).drop
            ((u.drop (i + 7)).length + 7 + q2 + 8) = y2.drop (q2 + 8) := by
          rw [drop_inner u y2 hbound]
          have e : (u.drop (i + 7)).length + 7 + q2 + 8 =
              (u.drop (i + 7)).length + 7 + (q2 + 8) := by omega
          rw [e, drop_far]
        rw [e1, e2, hrem]

theorem sanitize_pairdel {u y1 y2 : List Char} {q1 q2 : Nat}
    (hq1 : findSubCI thinkCloseStr y1 = some q1)
    (hq2 : findSubCI thinkCloseStr y2 = some q2)
    (hrem : y1.drop (q1 + 8) = y2.drop (q2 + 8)) :
    sanitizeThink (u ++ thinkOpenStr ++ y1) = sanitizeThink (u ++ thinkOpenStr ++ y2) := by
  unfold sanitizeThink
  rw [rtb_pairdel u.length u y1 y2 (le_refl _) q1 q2 hq1 hq2 hrem]

/-! ### Claims C6 and C7: reasoning-block content is absent, for every occurrence -/

/-- C6: for every input text containing a paired reasoning-block marker —
written `u ++ "<think>" ++ c ++ "</think>" ++ b` with the sole hypothesis
that the enclosed content `c` contains no close marker, so that this
close marker is the nearest one following this open marker, exactly the
pairing the non-greedy `re.sub` performs — the enclosed content is absent
from `_extract_json_from_text`'s output: the result equals the result on
the same text with the content deleted.  The prefix `u` and suffix `b`
are arbitrary and may themselves contain further markers, so every paired
occurrence of every text is covered, not only the leftmost one. -/
theorem C6_any_paired_think_content_absent (u c b : List Char)
    (hc : findSubCI thinkCloseStr c = none) :
    extractJsonFromText (u ++ thinkOpenStr ++ c ++ thinkCloseStr ++ b) =
      extractJsonFromText (u ++ thinkOpenStr ++ thinkCloseStr ++ b) := by
  have e1 : u ++ thinkOpenStr ++ c ++ thinkCloseStr ++ b =
      u ++ thinkOpenStr ++ (c ++ thinkCloseStr ++ b) := by
    simp [List.append_assoc]
  have e2 : u ++ thinkOpenStr ++ thinkCloseStr ++ b =
      u ++ thinkOpenStr ++ (thinkCloseStr ++ b) := by
    simp [List.append_assoc]
  have hy1 : findSubCI thinkCloseStr (c ++ thinkCloseStr ++ b) = some c.length :=
    find_close_pair_content b hc
  have hy2 : findSubCI thinkCloseStr (thinkCloseStr ++ b) = some 0 :=
    findSubCI_close_head b
  have hrem : (c ++ thinkCloseStr ++ b).drop (c.length + 8) =
      (thinkCloseStr ++ b).drop (0 + 8) := by
    have l1 : (c ++ thinkCloseStr ++ b).drop (c.length + 8) = b := by
      have e : c.length + 8 = (c ++ thinkCloseStr).length := by
        simp [thinkClose_len]
      rw [e]
      exact List.drop_left _ _
    have l2 : (thinkCloseStr ++ b).drop (0 + 8) = b := by
      have e : (0 : Nat) + 8 = thinkCloseStr.length := by
        rw [thinkClose_len]
      rw [e]
      exact List.drop_left _ _
    rw [l1, l2]
  rw [e1, e2]
  unfold extractJsonFromText
  rw [sanitize_pairdel hy1 hy2 hrem]

/-- Witness for C6 at a concrete text whose instantiated pair is the
second one (the prefix already contains a complete pair). -/
theorem C6_any_paired_think_content_absent_witness :
    findSubCI thinkCloseStr "q".data = none ∧
    extractJsonFromText ("a<think>p</think>b".data ++ thinkOpenStr ++ "q".data ++
        thinkCloseStr ++ " \x7b\"k\": 1\x7d".data) =
      extractJsonFromText ("a<think>p</think>b".data ++ thinkOpenStr ++
        thinkCloseStr ++ " \x7b\"k\": 1\x7d".data) :=
  ⟨by decide, C6_any_paired_think_content_absent "a<think>p</think>b".data "q".data
    " \x7b\"k\": 1\x7d".data (by decide)⟩

/-- C7: for every input text containing an unclosed reasoning-block open
marker — written `u ++ "<think>" ++ z`, the hypothesis stating that no
close marker occurs (case-insensitively) after the open marker —
everything from that marker to the end of the text is absent from
`_extract_json_from_text`'s output: the result equals the result on the
text truncated just before the marker.  The prefix `u` is arbitrary and
may itself contain earlier paired blocks or further markers. -/
theorem C7_unclosed_think_tail_absent (u z : List Char)
    (hz : findSubCI thinkCloseStr z = none) :
    extractJsonFromText (u ++ thinkOpenStr ++ z) = extractJsonFromText u := by
  unfold extractJsonFromText
  rw [sanitize_unclosed hz]

/-- Witness for C7 at a concrete text with a complete paired block before
the unclosed marker. -/
theorem C7_unclosed_think_tail_absent_witness :
    findSubCI thinkCloseStr "z \x7b\"a\": 2\x7d".data = none ∧
    extractJsonFromText ("m\x7b\"a\": 1\x7d<think>x</think>n".data ++ thinkOpenStr ++
        "z \x7b\"a\": 2\x7d".data) =
      extractJsonFromText "m\x7b\"a\": 1\x7d<think>x</think>n".data :=
  ⟨by decide, C7_unclosed_think_tail_absent "m\x7b\"a\": 1\x7d<think>x</think>n".data
    "z \x7b\"a\": 2\x7d".data (by decide)⟩
